import Mathlib

/-!
Verification of the SiliconAI-Validator hit/particle data pipeline.

The development embeds, over exact rational arithmetic, the quantization
rules, the vertex-as-hit sequence builder, the importer's bulk coordinate
reconstruction, and the validator's comparison series from
`src/siliconai_validator/data/export.py`, `data/importing.py`,
`plotting/validation.py` and their `siliconai_acts` twins.
Floating-point columns are modelled as rationals; NaN cells produced by
index alignment are modelled as `Option` with `none` for NaN.
-/

namespace SiliconAI

/-! ### Quantization (RecordCodec)

The pandas/numpy expressions
`x.round(2).map(lambda x: np.trunc(100 * x) / 100)` (vertex rows in both
repository generations, and hit rows in the `siliconai_acts` generation) and
`x.map(lambda x: np.trunc(np.floor(x * 100) if x > 0 else np.ceil(x * 100)) / 100)`
(hit rows in `siliconai_validator/data/export.py`, `export_hits_single`).
`Series.round` rounds half to even, as numpy does. -/

/-- Round a rational to the nearest integer, ties to even (numpy rounding). -/
def roundHalfEven (q : ℚ) : ℤ :=
  if q - ⌊q⌋ < 1/2 then ⌊q⌋
  else if 1/2 < q - ⌊q⌋ then ⌊q⌋ + 1
  else if ⌊q⌋ % 2 = 0 then ⌊q⌋ else ⌊q⌋ + 1

/-- Rounding to two decimal places, `Series.round(2)`. -/
def round2 (x : ℚ) : ℚ := (roundHalfEven (100 * x) : ℚ) / 100

/-- Truncation toward zero, `np.trunc`. -/
def truncQ (x : ℚ) : ℤ := if 0 ≤ x then ⌊x⌋ else ⌈x⌉

/-- The canonical quantization rule: round to two decimals, then truncate
toward zero on the 2-decimal grid, `np.trunc(100 * x.round(2)) / 100`. -/
def quantize (x : ℚ) : ℚ := (truncQ (100 * round2 x) : ℚ) / 100

/-- The asymmetric hit-row quantization of `export_hits_single`:
`np.trunc(np.floor(x * 100) if x > 0 else np.ceil(x * 100)) / 100`. -/
def quantizeFloorCeil (x : ℚ) : ℚ :=
  (truncQ (if 0 < x then ((⌊100 * x⌋ : ℤ) : ℚ) else ((⌈100 * x⌉ : ℤ) : ℚ)) : ℚ) / 100

theorem roundHalfEven_intCast (n : ℤ) : roundHalfEven (n : ℚ) = n := by
  simp [roundHalfEven]

theorem truncQ_intCast (n : ℤ) : truncQ (n : ℚ) = n := by
  unfold truncQ
  split <;> simp

theorem abs_sub_roundHalfEven (q : ℚ) : |q - (roundHalfEven q : ℚ)| ≤ 1/2 := by
  have h1 : (⌊q⌋ : ℚ) ≤ q := Int.floor_le q
  have h2 : q < (⌊q⌋ : ℚ) + 1 := Int.lt_floor_add_one q
  unfold roundHalfEven
  split_ifs <;> push_cast <;> rw [abs_le] <;> constructor <;> linarith

/-- After two-decimal rounding, the value is already on the grid, so the
subsequent truncation is the identity. -/
theorem quantize_eq (x : ℚ) : quantize x = (roundHalfEven (100 * x) : ℚ) / 100 := by
  unfold quantize round2
  rw [mul_div_cancel₀ _ (by norm_num : (100 : ℚ) ≠ 0), truncQ_intCast]

theorem abs_sub_quantize (x : ℚ) : |x - quantize x| ≤ 1/200 := by
  rw [quantize_eq]
  have h := abs_sub_roundHalfEven (100 * x)
  rw [abs_le] at h ⊢
  constructor <;> [linarith [h.1]; linarith [h.2]]

theorem quantize_idem (x : ℚ) : quantize (quantize x) = quantize x := by
  rw [quantize_eq x, quantize_eq]
  rw [mul_div_cancel₀ _ (by norm_num : (100 : ℚ) ≠ 0), roundHalfEven_intCast]

theorem quantizeFloorCeil_eq (x : ℚ) :
    quantizeFloorCeil x = (if 0 < x then (⌊100 * x⌋ : ℚ) else (⌈100 * x⌉ : ℚ)) / 100 := by
  unfold quantizeFloorCeil
  split <;> rw [truncQ_intCast]

theorem quantizeFloorCeil_idem (x : ℚ) :
    quantizeFloorCeil (quantizeFloorCeil x) = quantizeFloorCeil x := by
  rw [quantizeFloorCeil_eq x]
  by_cases hx : 0 < x
  · simp only [hx, if_true]
    have hk : (0:ℤ) ≤ ⌊100 * x⌋ := by
      have : (0:ℚ) ≤ 100 * x := by positivity
      exact Int.floor_nonneg.mpr this
    by_cases hz : (0:ℚ) < (⌊100 * x⌋ : ℚ) / 100
    · rw [quantizeFloorCeil_eq, if_pos hz,
        mul_div_cancel₀ _ (by norm_num : (100 : ℚ) ≠ 0), Int.floor_intCast]
    · have h0 : (⌊100 * x⌋ : ℚ) = 0 := by
        have : (0:ℚ) ≤ (⌊100 * x⌋ : ℚ) := by exact_mod_cast hk
        have hle : (⌊100 * x⌋ : ℚ) / 100 ≤ 0 := le_of_not_lt hz
        nlinarith
      rw [h0]
      rw [quantizeFloorCeil_eq]
      norm_num
  · simp only [hx, if_false]
    have hk : ⌈100 * x⌉ ≤ 0 := by
      have hx' : x ≤ 0 := le_of_not_lt hx
      have : 100 * x ≤ 0 := by nlinarith
      exact Int.ceil_le.mpr (by exact_mod_cast this)
    have hz : ¬ (0:ℚ) < (⌈100 * x⌉ : ℚ) / 100 := by
      rw [not_lt]
      have : (⌈100 * x⌉ : ℚ) ≤ 0 := by exact_mod_cast hk
      linarith [div_nonpos_of_nonpos_of_nonneg this (by norm_num : (0:ℚ) ≤ 100)]
    rw [quantizeFloorCeil_eq, if_neg hz,
      mul_div_cancel₀ _ (by norm_num : (100 : ℚ) ≠ 0), Int.ceil_intCast]

/-! ### Data model and SequenceBuilder

Embedding of `process_particle_vertices_as_hits` (textually identical in
`siliconai_validator/data/export.py` lines 38-93 and
`siliconai_acts/data/export.py` lines 22-77), and of the hit processing and
merge in `export_hits_single` (and `export_hits` of the acts generation).
A DataFrame is a list of rows; `sort_index()` is modelled by a stable sort
on the `(event_id, index)` key. -/

def geometry_id_start : ℕ := 1000000

def geometry_id_end : ℕ := 1000001

/-- One primary-particle row, columns `particles_columns_vertex`. -/
structure ParticleRow where
  event_id : ℕ
  vx : ℚ
  vy : ℚ
  vz : ℚ
  px : ℚ
  py : ℚ
  pz : ℚ
  number_of_hits : ℕ
  deriving DecidableEq, Repr

/-- One raw hit row as loaded by `process_hits`, columns `hits_columns`,
with the per-event 0-based hit position in `index`. -/
structure HitRow where
  event_id : ℕ
  geometry_id : ℕ
  index : ℕ
  tx : ℚ
  ty : ℚ
  tz : ℚ
  tpx : ℚ
  tpy : ℚ
  tpz : ℚ
  lx : ℚ
  ly : ℚ
  deriving DecidableEq, Repr

/-- One row of the built sequence (`cat_data`), keyed by `(event_id, index)`. -/
structure SeqRow where
  event_id : ℕ
  index : ℕ
  geometry_id : ℕ
  tx : ℚ
  ty : ℚ
  tz : ℚ
  tpx : ℚ
  tpy : ℚ
  tpz : ℚ
  lx : ℚ
  ly : ℚ
  lxq : ℚ
  lyq : ℚ
  tpxq : ℚ
  tpyq : ℚ
  tpzq : ℚ
  deriving DecidableEq, Repr

/-- Ascending order on the `(event_id, index)` MultiIndex key. -/
def seqKeyLE (a b : SeqRow) : Prop :=
  a.event_id < b.event_id ∨ (a.event_id = b.event_id ∧ a.index ≤ b.index)

instance : DecidableRel seqKeyLE := fun a b => by
  unfold seqKeyLE; infer_instance

instance : IsTotal SeqRow seqKeyLE :=
  ⟨fun a b => by
    unfold seqKeyLE
    rcases Nat.lt_trichotomy a.event_id b.event_id with h | h | h
    · exact Or.inl (Or.inl h)
    · rcases Nat.le_total a.index b.index with h2 | h2
      · exact Or.inl (Or.inr ⟨h, h2⟩)
      · exact Or.inr (Or.inr ⟨h.symm, h2⟩)
    · exact Or.inr (Or.inl h)⟩

instance : IsTrans SeqRow seqKeyLE :=
  ⟨fun a b c hab hbc => by
    unfold seqKeyLE at *
    rcases hab with h1 | ⟨h1, h1'⟩ <;> rcases hbc with h2 | ⟨h2, h2'⟩
    · exact Or.inl (h1.trans h2)
    · exact Or.inl (h2 ▸ h1)
    · exact Or.inl (h1 ▸ h2)
    · exact Or.inr ⟨h1.trans h2, h1'.trans h2'⟩⟩

/-- The table sort `DataFrame.sort_index()` on the `(event_id, index)` key. -/
def sortByKey (l : List SeqRow) : List SeqRow := List.insertionSort seqKeyLE l

/-- The batch-wide maximum of the absolute renamed `tz` (= `vz`) column,
`vertex_data["tz"].abs().max()`. -/
def maxAbsTz (rows : List ParticleRow) : ℚ :=
  (rows.map fun p => |p.vz|).foldr max 0

/-- One output row of `process_particle_vertices_as_hits` for particle `p`,
where `m` is the batch-wide `maxAbsTz` of the particle batch: the column
renames `vx→tx, vy→ty, vz→tz, px→tpx, py→tpy, pz→tpz`, the start/end
sentinel `geometry_id`, the index `0` or `number_of_hits + 1`, the
end-vertex `tz = lx = ly = tx` quirk, the start-vertex
`ly = tz / max * 50` normalization, and the vertex quantized columns. -/
def mkVertexRow (end_vertex : Bool) (m : ℚ) (p : ParticleRow) : SeqRow :=
  let tx := p.vx
  let ty := p.vy
  let tz0 := p.vz
  let tz := if end_vertex then tx else tz0
  let lx := tx
  let ly := if end_vertex then tx else tz0 / m * 50
  { event_id := p.event_id
    index := if end_vertex then p.number_of_hits + 1 else 0
    geometry_id := if end_vertex then geometry_id_end else geometry_id_start
    tx := tx, ty := ty, tz := tz
    tpx := p.px, tpy := p.py, tpz := p.pz
    lx := lx, ly := ly
    lxq := quantize lx, lyq := quantize ly
    tpxq := quantize p.px, tpyq := quantize p.py, tpzq := quantize p.pz }

/-- Embedding of `process_particle_vertices_as_hits(vertex_data, end_vertex)`. -/
def process_particle_vertices_as_hits
    (rows : List ParticleRow) (end_vertex : Bool) : List SeqRow :=
  sortByKey (rows.map (mkVertexRow end_vertex (maxAbsTz rows)))

/-- Hit-row processing of `export_hits_single` (validator generation):
shift the per-event index by one and add the quantized columns with the
asymmetric floor/ceil rule. -/
def processHit (h : HitRow) : SeqRow :=
  { event_id := h.event_id, index := h.index + 1, geometry_id := h.geometry_id
    tx := h.tx, ty := h.ty, tz := h.tz
    tpx := h.tpx, tpy := h.tpy, tpz := h.tpz
    lx := h.lx, ly := h.ly
    lxq := quantizeFloorCeil h.lx, lyq := quantizeFloorCeil h.ly
    tpxq := quantizeFloorCeil h.tpx, tpyq := quantizeFloorCeil h.tpy
    tpzq := quantizeFloorCeil h.tpz }

/-- Hit-row processing of `export_hits` (acts generation): same index shift,
quantized columns with the symmetric round-then-truncate rule. -/
def processHitActs (h : HitRow) : SeqRow :=
  { event_id := h.event_id, index := h.index + 1, geometry_id := h.geometry_id
    tx := h.tx, ty := h.ty, tz := h.tz
    tpx := h.tpx, tpy := h.tpy, tpz := h.tpz
    lx := h.lx, ly := h.ly
    lxq := quantize h.lx, lyq := quantize h.ly
    tpxq := quantize h.tpx, tpyq := quantize h.tpy
    tpzq := quantize h.tpz }

/-- The merged sequence `pd.concat([vertex, hits, vertex_end]).sort_index()`
of `export_hits_single`. The later event-level join of
`particles_data_common` broadcasts scalar particle columns and is
one-to-one on rows, so it does not change the `(event_id, index)`
structure modelled here. -/
def export_build (ps : List ParticleRow) (hs : List HitRow) : List SeqRow :=
  sortByKey
    (process_particle_vertices_as_hits ps false
      ++ (sortByKey (hs.map processHit)
        ++ process_particle_vertices_as_hits ps true))

/-- Rows of one event, `table.loc[[e]]` on the first index level. -/
def filterEvent (e : ℕ) (l : List SeqRow) : List SeqRow :=
  l.filter fun r => r.event_id == e

/-! ### Structure of the built sequence (SequenceBuilder invariants) -/

theorem mkVertexRow_event_id (b : Bool) (m : ℚ) (p : ParticleRow) :
    (mkVertexRow b m p).event_id = p.event_id := rfl

theorem processHit_event_id (h : HitRow) : (processHit h).event_id = h.event_id := rfl

theorem sortByKey_perm (l : List SeqRow) : List.Perm (sortByKey l) l :=
  List.perm_insertionSort _ _

theorem sorted_sortByKey (l : List SeqRow) : List.Sorted seqKeyLE (sortByKey l) :=
  List.sorted_insertionSort _ _

theorem export_build_perm (ps : List ParticleRow) (hs : List HitRow) :
    List.Perm (export_build ps hs)
      (ps.map (mkVertexRow false (maxAbsTz ps))
        ++ (hs.map processHit ++ ps.map (mkVertexRow true (maxAbsTz ps)))) := by
  unfold export_build process_particle_vertices_as_hits
  exact (sortByKey_perm _).trans
    ((sortByKey_perm _).append ((sortByKey_perm _).append (sortByKey_perm _)))

theorem sorted_export_build (ps : List ParticleRow) (hs : List HitRow) :
    List.Sorted seqKeyLE (export_build ps hs) :=
  sorted_sortByKey _

/-- Filtering an event commutes with mapping a row builder that preserves
`event_id`. -/
theorem filter_event_map {α : Type} (f : α → SeqRow) (ev : α → ℕ)
    (hf : ∀ a, (f a).event_id = ev a) (e : ℕ) (l : List α) :
    (l.map f).filter (fun r => r.event_id == e)
      = (l.filter fun a => ev a == e).map f := by
  induction l with
  | nil => rfl
  | cons a t ih =>
    simp only [List.map_cons, List.filter_cons, hf]
    split <;> simp [ih]

/-- Per-event decomposition of the built sequence: if event `e` has exactly
one particle row `p`, the rows of event `e` are a permutation of the start
vertex row, the processed hits of event `e`, and the end vertex row. -/
theorem filterEvent_build_perm (ps : List ParticleRow) (hs : List HitRow)
    (e : ℕ) (p : ParticleRow)
    (hp : ps.filter (fun q => q.event_id == e) = [p]) :
    List.Perm (filterEvent e (export_build ps hs))
      (mkVertexRow false (maxAbsTz ps) p ::
        ((hs.filter fun h => h.event_id == e).map processHit
          ++ [mkVertexRow true (maxAbsTz ps) p])) := by
  have h1 := (export_build_perm ps hs).filter (fun r => r.event_id == e)
  unfold filterEvent
  refine h1.trans ?_
  rw [List.filter_append, List.filter_append,
    filter_event_map (mkVertexRow false (maxAbsTz ps)) ParticleRow.event_id
      (fun a => rfl) e ps,
    filter_event_map (mkVertexRow true (maxAbsTz ps)) ParticleRow.event_id
      (fun a => rfl) e ps,
    filter_event_map processHit HitRow.event_id (fun a => rfl) e hs, hp]
  simp

/-- Every row of the event filter carries that event id. -/
theorem event_of_mem_filterEvent {e : ℕ} {l : List SeqRow} {r : SeqRow}
    (h : r ∈ filterEvent e l) : r.event_id = e := by
  unfold filterEvent at h
  have := List.of_mem_filter h
  simpa using this

/-- Within one event, the key order collapses to the order of `index`. -/
theorem sorted_indices_of_filterEvent (e : ℕ) (l : List SeqRow)
    (hl : List.Sorted seqKeyLE l) :
    List.Sorted (· ≤ ·) ((filterEvent e l).map fun r => r.index) := by
  have hs : List.Sorted seqKeyLE (filterEvent e l) := hl.filter _
  have hidx : List.Pairwise (fun a b : SeqRow => a.index ≤ b.index)
      (filterEvent e l) := by
    refine hs.imp_of_mem ?_
    intro a b ha hb hab
    have hae := event_of_mem_filterEvent ha
    have hbe := event_of_mem_filterEvent hb
    rcases hab with h | ⟨_, h⟩
    · omega
    · exact h
  exact List.pairwise_map.mpr hidx

/-- The cons/append arrangement of the per-event index values. -/
theorem range_index_shape (N : ℕ) :
    (0 :: ((List.range N).map (fun i => i + 1) ++ [N + 1])) = List.range (N + 2) := by
  rw [show N + 2 = (N + 1) + 1 from rfl, List.range_succ, List.range_succ_eq_map]
  simp [Nat.succ_eq_add_one]

/-- If event `e` has exactly one particle row `p` and the event's input hits
carry the contiguous 0-based per-event indices `0..number_of_hits-1`, the
event's index column in the built sequence is exactly `0..number_of_hits+1`
in ascending order. -/
theorem filterEvent_build_index_list (ps : List ParticleRow) (hs : List HitRow)
    (e : ℕ) (p : ParticleRow)
    (hp : ps.filter (fun q => q.event_id == e) = [p])
    (hidx : List.Perm ((hs.filter fun h => h.event_id == e).map fun h => h.index)
      (List.range p.number_of_hits)) :
    (filterEvent e (export_build ps hs)).map (fun r => r.index)
      = List.range (p.number_of_hits + 2) := by
  have hperm := (filterEvent_build_perm ps hs e p hp).map (fun r => r.index)
  rw [List.map_cons, List.map_append, List.map_map] at hperm
  simp only [List.map_cons, List.map_nil] at hperm
  have h0 : (mkVertexRow false (maxAbsTz ps) p).index = 0 := rfl
  have hN : (mkVertexRow true (maxAbsTz ps) p).index = p.number_of_hits + 1 := rfl
  have hcomp : ((fun r : SeqRow => r.index) ∘ processHit)
      = fun h : HitRow => h.index + 1 := rfl
  rw [h0, hN, hcomp] at hperm
  have hshift : List.Perm ((hs.filter fun h => h.event_id == e).map fun h => h.index + 1)
      ((List.range p.number_of_hits).map fun i => i + 1) := by
    have h2 := hidx.map (fun i => i + 1)
    rw [List.map_map] at h2
    exact h2
  have hperm2 : List.Perm
      ((filterEvent e (export_build ps hs)).map fun r => r.index)
      (List.range (p.number_of_hits + 2)) := by
    refine hperm.trans ?_
    rw [← range_index_shape p.number_of_hits]
    exact (hshift.append (List.Perm.refl _)).cons 0
  exact List.eq_of_perm_of_sorted hperm2
    (sorted_indices_of_filterEvent e _ (sorted_export_build ps hs))
    (List.sorted_le_range _)

/-- Claim C4 concrete data: one event, a particle with vertex `(0,0,0)`,
momentum `(1,0,5)` and three hits, at sensor ids 101, 102, 103. -/
def exParticle : ParticleRow :=
  { event_id := 0, vx := 0, vy := 0, vz := 0, px := 1, py := 0, pz := 5
    number_of_hits := 3 }

def exHit (gid idx : ℕ) : HitRow :=
  { event_id := 0, geometry_id := gid, index := idx
    tx := 1, ty := 2, tz := 3, tpx := 1, tpy := 0, tpz := 5, lx := 4, ly := 5 }

def exHits : List HitRow := [exHit 101 0, exHit 102 1, exHit 103 2]

/-- C4. For every event whose particle has `N` hits (exactly one particle row
for the event, input hits of the event carrying contiguous 0-based per-event
indices), the built sequence has exactly `N + 2` rows for that event with
index column exactly `0..N+1` ascending; the row at index 0 carries
`geometry_id_start`, the row at index `N+1` carries `geometry_id_end`, and
every index `1..N` carries the sensor id of the input hit whose per-event
index it shifts by one; the whole table is sorted by `(event_id, index)`. -/
theorem exporter_event_rows (ps : List ParticleRow) (hs : List HitRow)
    (e : ℕ) (p : ParticleRow)
    (hp : ps.filter (fun q => q.event_id == e) = [p])
    (hidx : List.Perm ((hs.filter fun h => h.event_id == e).map fun h => h.index)
      (List.range p.number_of_hits)) :
    (filterEvent e (export_build ps hs)).length = p.number_of_hits + 2 ∧
    (filterEvent e (export_build ps hs)).map (fun r => r.index)
      = List.range (p.number_of_hits + 2) ∧
    (∀ r ∈ filterEvent e (export_build ps hs),
      (r.index = 0 → r.geometry_id = geometry_id_start) ∧
      (r.index = p.number_of_hits + 1 → r.geometry_id = geometry_id_end) ∧
      (0 < r.index → r.index < p.number_of_hits + 1 →
        ∃ h ∈ hs, h.event_id = e ∧ h.index + 1 = r.index ∧
          r.geometry_id = h.geometry_id)) ∧
    (∀ h ∈ hs, h.event_id = e →
      ∃ r ∈ filterEvent e (export_build ps hs),
        r.index = h.index + 1 ∧ r.geometry_id = h.geometry_id) ∧
    List.Sorted seqKeyLE (export_build ps hs) := by
  have hlist := filterEvent_build_index_list ps hs e p hp hidx
  have hlen : (filterEvent e (export_build ps hs)).length = p.number_of_hits + 2 := by
    have := congrArg List.length hlist
    simpa using this
  have hmem : ∀ r : SeqRow, r ∈ filterEvent e (export_build ps hs) ↔
      r ∈ mkVertexRow false (maxAbsTz ps) p ::
        ((hs.filter fun h => h.event_id == e).map processHit
          ++ [mkVertexRow true (maxAbsTz ps) p]) :=
    fun r => (filterEvent_build_perm ps hs e p hp).mem_iff
  refine ⟨hlen, hlist, ?_, ?_, sorted_export_build ps hs⟩
  · intro r hr
    have hr' := (hmem r).mp hr
    simp only [List.mem_cons, List.mem_append, List.mem_map,
      List.mem_singleton, List.mem_nil_iff, or_false] at hr'
    rcases hr' with h | ⟨h', hh', rfl⟩ | h
    · subst h
      refine ⟨fun _ => rfl, fun habs => absurd habs (by simp [mkVertexRow]), ?_⟩
      intro h0
      simp [mkVertexRow] at h0
    · have hin : h'.index < p.number_of_hits := by
        have : h'.index ∈ (hs.filter fun h => h.event_id == e).map
            (fun h => h.index) := List.mem_map_of_mem _ hh'
        have := hidx.mem_iff.mp this
        simpa using this
      refine ⟨?_, ?_, ?_⟩
      · intro habs
        simp [processHit] at habs
      · intro habs
        have : h'.index + 1 = p.number_of_hits + 1 := habs
        omega
      · intro _ _
        refine ⟨h', List.mem_of_mem_filter hh', ?_, rfl, rfl⟩
        have := List.of_mem_filter hh'
        simpa using this
    · subst h
      refine ⟨?_, fun _ => rfl, ?_⟩
      · intro habs
        simp [mkVertexRow] at habs
      · intro _ habs
        simp [mkVertexRow] at habs
  · intro h hh hhe
    refine ⟨processHit h, ?_, rfl, rfl⟩
    refine (hmem _).mpr ?_
    simp only [List.mem_cons, List.mem_append, List.mem_map, List.mem_singleton]
    exact Or.inr (Or.inl ⟨h, List.mem_filter.mpr ⟨hh, by simp [hhe]⟩, rfl⟩)

/-- A table whose per-event index columns are duplicate-free has
duplicate-free `(event_id, index)` pairs. -/
theorem nodup_pairs_of_event_indices (l : List SeqRow)
    (h : ∀ e, ((filterEvent e l).map fun r => r.index).Nodup) :
    (l.map fun r => (r.event_id, r.index)).Nodup := by
  induction l with
  | nil => simp
  | cons r t ih =>
    simp only [List.map_cons, List.nodup_cons]
    constructor
    · intro hmem
      obtain ⟨s, hs, hpair⟩ := List.mem_map.mp hmem
      have hse : s.event_id = r.event_id := congrArg Prod.fst hpair
      have hsi : s.index = r.index := congrArg Prod.snd hpair
      have hf := h r.event_id
      rw [show filterEvent r.event_id (r :: t) = r :: filterEvent r.event_id t from by
        simp [filterEvent, List.filter_cons]] at hf
      rw [List.map_cons, List.nodup_cons] at hf
      exact hf.1 (hsi ▸ List.mem_map_of_mem (fun q : SeqRow => q.index)
        (List.mem_filter.mpr ⟨hs, by simp [hse]⟩))
    · apply ih
      intro e
      have hf := h e
      by_cases hre : r.event_id = e
      · rw [show filterEvent e (r :: t) = r :: filterEvent e t from by
          simp [filterEvent, List.filter_cons, hre]] at hf
        rw [List.map_cons, List.nodup_cons] at hf
        exact hf.2
      · rwa [show filterEvent e (r :: t) = filterEvent e t from by
          simp [filterEvent, List.filter_cons, hre]] at hf

theorem filterEvent_eq_nil_of_not_mem (e : ℕ) (l : List SeqRow)
    (h : e ∉ l.map fun r => r.event_id) : filterEvent e l = [] := by
  unfold filterEvent
  rw [List.filter_eq_nil_iff]
  intro r hr habs
  have he : r.event_id = e := by simpa using habs
  exact h (he ▸ List.mem_map_of_mem (fun r : SeqRow => r.event_id) hr)

/-- C5. Under the stated preconditions for every event of the built table
(contiguous 0-based input hit indices, exactly one particle row whose
`number_of_hits` is the event's hit count), the `(event_id, index)` pairs of
the built sequence are pairwise distinct, and each event's index values are
exactly the contiguous range `0..number_of_hits+1`. -/
theorem export_pairs_nodup (ps : List ParticleRow) (hs : List HitRow)
    (hyp : ∀ e ∈ (export_build ps hs).map (fun r => r.event_id),
      ∃ p, ps.filter (fun q => q.event_id == e) = [p] ∧
        List.Perm ((hs.filter fun h => h.event_id == e).map fun h => h.index)
          (List.range p.number_of_hits)) :
    ((export_build ps hs).map fun r => (r.event_id, r.index)).Nodup ∧
    ∀ e p, ps.filter (fun q => q.event_id == e) = [p] →
      e ∈ (export_build ps hs).map (fun r => r.event_id) →
      (filterEvent e (export_build ps hs)).map (fun r => r.index)
        = List.range (p.number_of_hits + 2) := by
  constructor
  · apply nodup_pairs_of_event_indices
    intro e
    by_cases he : e ∈ (export_build ps hs).map (fun r => r.event_id)
    · obtain ⟨p, hp, hidx⟩ := hyp e he
      rw [filterEvent_build_index_list ps hs e p hp hidx]
      exact List.nodup_range _
    · rw [filterEvent_eq_nil_of_not_mem e _ he]
      simp
  · intro e p hp he
    obtain ⟨p', hp', hidx'⟩ := hyp e he
    have hpp : p' = p := by
      rw [hp] at hp'
      exact (List.cons.injEq _ _ _ _ ▸ hp').1.symm
    exact filterEvent_build_index_list ps hs e p hp (hpp ▸ hidx')

/-- C4 witness scenario: the hypotheses hold for the single-event input and
the conclusion instantiates to the 5-row sequence with indices 0..4. -/
theorem exporter_event_rows_scenario :
    (([exParticle].filter fun q => q.event_id == 0) = [exParticle] ∧
      List.Perm ((exHits.filter fun h => h.event_id == 0).map fun h => h.index)
        (List.range exParticle.number_of_hits) ∧
      (filterEvent 0 (export_build [exParticle] exHits)).map
          (fun r => (r.index, r.geometry_id))
        = [(0, geometry_id_start), (1, 101), (2, 102), (3, 103),
            (4, geometry_id_end)]) ∧
    ((filterEvent 0 (export_build [exParticle] exHits)).length
        = exParticle.number_of_hits + 2 ∧
      (filterEvent 0 (export_build [exParticle] exHits)).map (fun r => r.index)
        = List.range (exParticle.number_of_hits + 2) ∧
      (∀ r ∈ filterEvent 0 (export_build [exParticle] exHits),
        (r.index = 0 → r.geometry_id = geometry_id_start) ∧
        (r.index = exParticle.number_of_hits + 1 →
          r.geometry_id = geometry_id_end) ∧
        (0 < r.index → r.index < exParticle.number_of_hits + 1 →
          ∃ h ∈ exHits, h.event_id = 0 ∧ h.index + 1 = r.index ∧
            r.geometry_id = h.geometry_id)) ∧
      (∀ h ∈ exHits, h.event_id = 0 →
        ∃ r ∈ filterEvent 0 (export_build [exParticle] exHits),
          r.index = h.index + 1 ∧ r.geometry_id = h.geometry_id) ∧
      List.Sorted seqKeyLE (export_build [exParticle] exHits)) :=
  ⟨⟨by decide, by decide, by decide⟩,
    exporter_event_rows [exParticle] exHits 0 exParticle (by decide) (by decide)⟩

/-- C5 witness: hypotheses and conclusion at the concrete one-event input. -/
theorem export_pairs_nodup_example :
    (∀ e ∈ (export_build [exParticle] exHits).map (fun r => r.event_id),
      ∃ p, [exParticle].filter (fun q => q.event_id == e) = [p] ∧
        List.Perm ((exHits.filter fun h => h.event_id == e).map fun h => h.index)
          (List.range p.number_of_hits)) ∧
    (((export_build [exParticle] exHits).map fun r => (r.event_id, r.index)).Nodup ∧
      ∀ e p, [exParticle].filter (fun q => q.event_id == e) = [p] →
        e ∈ (export_build [exParticle] exHits).map (fun r => r.event_id) →
        (filterEvent e (export_build [exParticle] exHits)).map (fun r => r.index)
          = List.range (p.number_of_hits + 2)) := by
  have hyp : ∀ e ∈ (export_build [exParticle] exHits).map (fun r => r.event_id),
      ∃ p, [exParticle].filter (fun q => q.event_id == e) = [p] ∧
        List.Perm ((exHits.filter fun h => h.event_id == e).map fun h => h.index)
          (List.range p.number_of_hits) := by
    intro e he
    have hl : (export_build [exParticle] exHits).map (fun r => r.event_id)
        = [0, 0, 0, 0, 0] := by decide
    rw [hl] at he
    have he0 : e = 0 := by simpa using he
    subst he0
    exact ⟨exParticle, by decide, by decide⟩
  exact ⟨hyp, export_pairs_nodup [exParticle] exHits hyp⟩

/-- C8. Every synthetic end-vertex row produced by
`process_particle_vertices_as_hits` has `tz`, `lx` and `ly` all equal to its
`tx` value, the renamed production-vertex `vx` of its source particle (the
function body is textually identical in both repository generations). -/
theorem end_vertex_quirk (rows : List ParticleRow) (r : SeqRow)
    (hr : r ∈ process_particle_vertices_as_hits rows true) :
    r.tz = r.tx ∧ r.lx = r.tx ∧ r.ly = r.tx ∧
    ∃ p ∈ rows, r = mkVertexRow true (maxAbsTz rows) p ∧ r.tx = p.vx := by
  unfold process_particle_vertices_as_hits at hr
  have hr' := (sortByKey_perm _).mem_iff.mp hr
  obtain ⟨p, hp, rfl⟩ := List.mem_map.mp hr'
  exact ⟨rfl, rfl, rfl, p, hp, rfl, rfl⟩

/-- C8 witness at the concrete example particle. -/
theorem end_vertex_quirk_example :
    mkVertexRow true (maxAbsTz [exParticle]) exParticle
        ∈ process_particle_vertices_as_hits [exParticle] true ∧
    ((mkVertexRow true (maxAbsTz [exParticle]) exParticle).tz
        = (mkVertexRow true (maxAbsTz [exParticle]) exParticle).tx ∧
      (mkVertexRow true (maxAbsTz [exParticle]) exParticle).lx
        = (mkVertexRow true (maxAbsTz [exParticle]) exParticle).tx ∧
      (mkVertexRow true (maxAbsTz [exParticle]) exParticle).ly
        = (mkVertexRow true (maxAbsTz [exParticle]) exParticle).tx ∧
      ∃ p ∈ [exParticle],
        mkVertexRow true (maxAbsTz [exParticle]) exParticle
          = mkVertexRow true (maxAbsTz [exParticle]) p ∧
        (mkVertexRow true (maxAbsTz [exParticle]) exParticle).tx = p.vx) := by
  have hmem : mkVertexRow true (maxAbsTz [exParticle]) exParticle
      ∈ process_particle_vertices_as_hits [exParticle] true := by
    unfold process_particle_vertices_as_hits
    exact (sortByKey_perm _).mem_iff.mpr (List.mem_map_of_mem _ (by simp))
  exact ⟨hmem, end_vertex_quirk [exParticle] _ hmem⟩

/-- C10 concrete particles showing the batch dependence of the start-vertex
`ly` normalization. -/
def exP10a : ParticleRow :=
  { event_id := 0, vx := 1, vy := 2, vz := 10, px := 1, py := 0, pz := 5
    number_of_hits := 3 }

def exP10b : ParticleRow :=
  { event_id := 1, vx := 1, vy := 2, vz := 20, px := 1, py := 0, pz := 5
    number_of_hits := 3 }

/-- C10. The start-vertex row of particle `p` has `lx = vx` and
`ly = vz / max |vz| * 50` where the maximum ranges over the whole particle
batch; consequently the encoded start-vertex `ly` is not a function of the
particle alone: the same particle gets `ly = 50` alone in a batch but
`ly = 25` next to a particle with twice the `|vz|`. -/
theorem start_vertex_ly_batch (rows : List ParticleRow) (p : ParticleRow)
    (hp : p ∈ rows) (hm : maxAbsTz rows ≠ 0) :
    (mkVertexRow false (maxAbsTz rows) p
        ∈ process_particle_vertices_as_hits rows false ∧
      (mkVertexRow false (maxAbsTz rows) p).ly = p.vz / maxAbsTz rows * 50 ∧
      (mkVertexRow false (maxAbsTz rows) p).lx = p.vx ∧
      (mkVertexRow false (maxAbsTz rows) p).lyq
        = quantize (p.vz / maxAbsTz rows * 50)) ∧
    (mkVertexRow false (maxAbsTz [exP10a]) exP10a).ly = 50 ∧
    (mkVertexRow false (maxAbsTz [exP10a, exP10b]) exP10a).ly = 25 ∧
    (50 : ℚ) ≠ 25 := by
  refine ⟨⟨?_, rfl, rfl, rfl⟩, ?_, ?_, by norm_num⟩
  · unfold process_particle_vertices_as_hits
    exact (sortByKey_perm _).mem_iff.mpr (List.mem_map_of_mem _ hp)
  · have hm1 : maxAbsTz [exP10a] = 10 := by norm_num [maxAbsTz, exP10a]
    show exP10a.vz / maxAbsTz [exP10a] * 50 = 50
    rw [hm1]
    norm_num [exP10a]
  · have hm2 : maxAbsTz [exP10a, exP10b] = 20 := by
      norm_num [maxAbsTz, exP10a, exP10b]
    show exP10a.vz / maxAbsTz [exP10a, exP10b] * 50 = 25
    rw [hm2]
    norm_num [exP10a]

/-- C10 witness at the concrete one-particle batch. -/
theorem start_vertex_ly_batch_example :
    (exP10a ∈ [exP10a] ∧ maxAbsTz [exP10a] ≠ 0) ∧
    ((mkVertexRow false (maxAbsTz [exP10a]) exP10a
        ∈ process_particle_vertices_as_hits [exP10a] false ∧
      (mkVertexRow false (maxAbsTz [exP10a]) exP10a).ly
        = exP10a.vz / maxAbsTz [exP10a] * 50 ∧
      (mkVertexRow false (maxAbsTz [exP10a]) exP10a).lx = exP10a.vx ∧
      (mkVertexRow false (maxAbsTz [exP10a]) exP10a).lyq
        = quantize (exP10a.vz / maxAbsTz [exP10a] * 50)) ∧
    (mkVertexRow false (maxAbsTz [exP10a]) exP10a).ly = 50 ∧
    (mkVertexRow false (maxAbsTz [exP10a, exP10b]) exP10a).ly = 25 ∧
    (50 : ℚ) ≠ 25) := by
  have h1 : exP10a ∈ [exP10a] := by simp
  have h2 : maxAbsTz [exP10a] ≠ 0 := by norm_num [maxAbsTz, exP10a]
  exact ⟨⟨h1, h2⟩, start_vertex_ly_batch [exP10a] exP10a h1 h2⟩

/-! ### Quantization rule by row kind (RecordCodec contract) -/

/-- The quantization rule exactly as the specification words it:
round to two decimals first, then truncate toward zero on the grid. -/
def quantizeSpec (x : ℚ) : ℚ := (truncQ (round2 x * 100) : ℚ) / 100

/-- C2 counterexample input: an input hit whose local x is 0.019. -/
def exHitQ : HitRow :=
  { event_id := 0, geometry_id := 101, index := 0
    tx := 1, ty := 2, tz := 3, tpx := 1, tpy := 0, tpz := 5
    lx := 19/1000, ly := 0 }

/-- C2 counterexample: a hit row exported by `export_hits_single` stores
`lxq = 0.01` for `lx = 0.019`, while the claimed round-then-truncate rule
yields `0.02`. -/
theorem quantize_claim_counter :
    (processHit exHitQ).lxq ≠ quantize exHitQ.lx ∧
    (processHit exHitQ).lxq = 1/100 ∧ quantize exHitQ.lx = 2/100 := by
  have h2 : (processHit exHitQ).lxq = 1/100 := by
    show quantizeFloorCeil (19/1000 : ℚ) = 1/100
    rw [quantizeFloorCeil_eq]
    norm_num
  have h3 : quantize exHitQ.lx = 2/100 := by
    show quantize (19/1000 : ℚ) = 2/100
    rw [quantize_eq]
    norm_num [roundHalfEven]
  refine ⟨?_, h2, h3⟩
  rw [h2, h3]
  norm_num

/-- C2 amended: the spec formula `trunc(round2(x) * 100) / 100` governs all
vertex-row quantized columns in both generations and the hit rows of the
acts generation, while the hit rows of `export_hits_single` in the
validator generation use the asymmetric floor/ceil rule instead. -/
theorem quantize_rule_by_row_kind (x : ℚ) (b : Bool) (m : ℚ)
    (p : ParticleRow) (h : HitRow) :
    quantizeSpec x = quantize x ∧
    ((mkVertexRow b m p).lxq = quantize (mkVertexRow b m p).lx ∧
      (mkVertexRow b m p).lyq = quantize (mkVertexRow b m p).ly ∧
      (mkVertexRow b m p).tpxq = quantize p.px ∧
      (mkVertexRow b m p).tpyq = quantize p.py ∧
      (mkVertexRow b m p).tpzq = quantize p.pz) ∧
    ((processHitActs h).lxq = quantize h.lx ∧
      (processHitActs h).lyq = quantize h.ly ∧
      (processHitActs h).tpxq = quantize h.tpx ∧
      (processHitActs h).tpyq = quantize h.tpy ∧
      (processHitActs h).tpzq = quantize h.tpz) ∧
    ((processHit h).lxq = quantizeFloorCeil h.lx ∧
      (processHit h).lyq = quantizeFloorCeil h.ly ∧
      (processHit h).tpxq = quantizeFloorCeil h.tpx ∧
      (processHit h).tpyq = quantizeFloorCeil h.tpy ∧
      (processHit h).tpzq = quantizeFloorCeil h.tpz) := by
  refine ⟨?_, ⟨rfl, rfl, rfl, rfl, rfl⟩, ⟨rfl, rfl, rfl, rfl, rfl⟩,
    ⟨rfl, rfl, rfl, rfl, rfl⟩⟩
  unfold quantizeSpec quantize
  rw [mul_comm]

/-- C6. Both quantization variants appearing across the repository
generations are idempotent on every (finite) rational input. -/
theorem quantize_idempotent (x : ℚ) :
    quantize (quantize x) = quantize x ∧
    quantizeFloorCeil (quantizeFloorCeil x) = quantizeFloorCeil x :=
  ⟨quantize_idem x, quantizeFloorCeil_idem x⟩

/-! ### CoordinateTransform and Importer coordinate reconstruction

The coordinate converter itself lives in the external detector toolkit and
in `siliconai_validator/data/utils.py`, which is not part of the sources;
it is modelled from the specification: a sensor is an isometrically placed
plane (origin plus an orthonormal local frame), the sentinel id 0
short-circuits to zeros, an unknown id raises a lookup error, and the
vectorized form applies the conversion row-wise with any per-row exception
aborting the whole call. -/

/-- Modelled from the spec: a sensor surface, an origin and a local
orthonormal frame `u`, `v` placed in global 3D space. -/
structure Sensor where
  ox : ℚ
  oy : ℚ
  oz : ℚ
  ux : ℚ
  uy : ℚ
  uz : ℚ
  vx : ℚ
  vy : ℚ
  vz : ℚ
  deriving DecidableEq, Repr

/-- Local-to-global placement of a point of the sensor plane. -/
def Sensor.toGlobal (s : Sensor) (lx ly : ℚ) : ℚ × ℚ × ℚ :=
  (s.ox + lx * s.ux + ly * s.vx,
   s.oy + lx * s.uy + ly * s.vy,
   s.oz + lx * s.uz + ly * s.vz)

/-- Global-to-local projection onto the sensor plane frame. -/
def Sensor.toLocal (s : Sensor) (p : ℚ × ℚ × ℚ) : ℚ × ℚ :=
  ((p.1 - s.ox) * s.ux + (p.2.1 - s.oy) * s.uy + (p.2.2 - s.oz) * s.uz,
   (p.1 - s.ox) * s.vx + (p.2.1 - s.oy) * s.vy + (p.2.2 - s.oz) * s.vz)

/-- Modelled from the spec: the external geometry service, a partial map
from sensor ids to sensor placements. -/
structure Geometry where
  sensor : ℕ → Option Sensor

/-- Modelled from the spec: `local_to_global(geometry_id, lx, ly)` of the
missing `siliconai_validator/data/utils.py` (its acts twin is
`siliconai_acts/data/utils.py`): sentinel id 0 returns zeros without
consulting geometry; an unknown id fails with the lookup error. -/
def local_to_global (g : Geometry) (gid : ℕ) (lx ly : ℚ) :
    Except Unit (ℚ × ℚ × ℚ) :=
  if gid = 0 then .ok (0, 0, 0)
  else
    match g.sensor gid with
    | some s => .ok (s.toGlobal lx ly)
    | none => .error ()

/-- Modelled from the spec: `global_to_local(geometry_id, x, y, z)`. -/
def global_to_local (g : Geometry) (gid : ℕ) (p : ℚ × ℚ × ℚ) :
    Except Unit (ℚ × ℚ) :=
  if gid = 0 then .ok (0, 0)
  else
    match g.sensor gid with
    | some s => .ok (s.toLocal p)
    | none => .error ()

/-- Modelled from the spec: the `np.vectorize`d bulk form
`local_to_global_vec`; a lookup failure on any element propagates out of
the whole call. -/
def local_to_global_vec (g : Geometry) :
    List (ℕ × ℚ × ℚ) → Except Unit (List (ℚ × ℚ × ℚ))
  | [] => .ok []
  | r :: rest =>
    match local_to_global g r.1 r.2.1 r.2.2, local_to_global_vec g rest with
    | .ok p, .ok ps => .ok (p :: ps)
    | .ok _, .error e => .error e
    | .error e, _ => .error e

/-- Embedding of the global-coordinate reconstruction in `preprocess_input`
of `data/importing.py` lines 70-86: the single try/except wraps the whole
vectorized call, and on a lookup error the scalar 0 is broadcast into the
`tx`, `ty`, `tz` columns of every row. -/
def importGlobal (g : Geometry) (rows : List (ℕ × ℚ × ℚ)) :
    List (ℚ × ℚ × ℚ) :=
  match local_to_global_vec g rows with
  | .ok v => v
  | .error _ => rows.map fun _ => (0, 0, 0)

/-- The successful per-row conversion value. -/
def rowGlobalOk (g : Geometry) (r : ℕ × ℚ × ℚ) : ℚ × ℚ × ℚ :=
  match local_to_global g r.1 r.2.1 r.2.2 with
  | .ok p => p
  | .error _ => (0, 0, 0)

theorem vec_ok_of_all_ok (g : Geometry) (rows : List (ℕ × ℚ × ℚ))
    (h : ∀ r ∈ rows, local_to_global g r.1 r.2.1 r.2.2 ≠ Except.error ()) :
    local_to_global_vec g rows = .ok (rows.map (rowGlobalOk g)) := by
  induction rows with
  | nil => rfl
  | cons r rest ih =>
    have hr := h r (by simp)
    have hrest := ih fun x hx => h x (by simp [hx])
    cases hv : local_to_global g r.1 r.2.1 r.2.2 with
    | error e => cases e; exact absurd hv hr
    | ok p => simp [local_to_global_vec, hv, hrest, rowGlobalOk]

theorem vec_error_of_exists (g : Geometry) (rows : List (ℕ × ℚ × ℚ))
    (h : ∃ r ∈ rows, local_to_global g r.1 r.2.1 r.2.2 = Except.error ()) :
    local_to_global_vec g rows = .error () := by
  induction rows with
  | nil => simp at h
  | cons r rest ih =>
    obtain ⟨x, hx, hxe⟩ := h
    rcases List.mem_cons.mp hx with rfl | hx'
    · cases hrest : local_to_global_vec g rest <;>
        simp [local_to_global_vec, hxe, hrest]
    · have hr := ih ⟨x, hx', hxe⟩
      cases hv : local_to_global g r.1 r.2.1 r.2.2 with
      | error e => cases e; simp [local_to_global_vec, hv]
      | ok p => simp [local_to_global_vec, hv, hr]

/-- C3 amended. The try/except of `preprocess_input` is batch-level, not
per-row: if every row's sensor id is valid (or the sentinel 0) the global
coordinates of each row are computed row-wise via `local_to_global`, but a
failed lookup for any single row replaces the global coordinates of all
rows of the table with 0, valid rows included. -/
theorem import_lookup_batchwise (g : Geometry) (rows : List (ℕ × ℚ × ℚ)) :
    ((∀ r ∈ rows, local_to_global g r.1 r.2.1 r.2.2 ≠ Except.error ()) →
      importGlobal g rows = rows.map (rowGlobalOk g)) ∧
    ((∃ r ∈ rows, local_to_global g r.1 r.2.1 r.2.2 = Except.error ()) →
      importGlobal g rows = rows.map fun _ => (0, 0, 0)) := by
  constructor
  · intro h
    unfold importGlobal
    rw [vec_ok_of_all_ok g rows h]
  · intro h
    unfold importGlobal
    rw [vec_error_of_exists g rows h]

/-- C3 and C7 concrete geometry: a single valid sensor with id 1, placed at
`(0, 0, 5)` with the identity frame. -/
def exSensor : Sensor :=
  { ox := 0, oy := 0, oz := 5, ux := 1, uy := 0, uz := 0
    vx := 0, vy := 1, vz := 0 }

def exGeo : Geometry :=
  ⟨fun gid => if gid = 1 then some exSensor else none⟩

/-- C3 counterexample: with one valid row `(1, 2, 3)` and one row with the
unknown sensor id 999, the importer zeroes the reconstructed globals of the
valid row as well, although its row-wise conversion succeeds with
`(2, 3, 5)`. -/
theorem import_lookup_counter :
    importGlobal exGeo [(1, 2, 3), (999, 0, 0)] = [(0, 0, 0), (0, 0, 0)] ∧
    local_to_global exGeo 1 2 3 = .ok (2, 3, 5) ∧
    ((0, 0, 0) : ℚ × ℚ × ℚ) ≠ (2, 3, 5) := by
  refine ⟨?_, ?_, by simp [Prod.ext_iff]⟩
  · have he : local_to_global exGeo 999 0 0 = .error () := by
      simp [local_to_global, exGeo]
    have := vec_error_of_exists exGeo [(1, 2, 3), (999, 0, 0)]
      ⟨(999, 0, 0), by simp, he⟩
    unfold importGlobal
    rw [this]
    rfl
  · simp [local_to_global, exGeo, exSensor, Sensor.toGlobal]

/-- C3 witness: both branches of the batch-level behavior at concrete
inputs over the concrete geometry. -/
theorem import_lookup_batchwise_example :
    ((∀ r ∈ [((1 : ℕ), (2 : ℚ), (3 : ℚ))],
        local_to_global exGeo r.1 r.2.1 r.2.2 ≠ Except.error ()) ∧
      (∃ r ∈ [((1 : ℕ), (2 : ℚ), (3 : ℚ)), ((999 : ℕ), (0 : ℚ), (0 : ℚ))],
        local_to_global exGeo r.1 r.2.1 r.2.2 = Except.error ())) ∧
    importGlobal exGeo [((1 : ℕ), (2 : ℚ), (3 : ℚ))]
      = [((1 : ℕ), (2 : ℚ), (3 : ℚ))].map (rowGlobalOk exGeo) ∧
    importGlobal exGeo [((1 : ℕ), (2 : ℚ), (3 : ℚ)), ((999 : ℕ), (0 : ℚ), (0 : ℚ))]
      = [((1 : ℕ), (2 : ℚ), (3 : ℚ)), ((999 : ℕ), (0 : ℚ), (0 : ℚ))].map
          fun _ => (0, 0, 0) := by
  have h1 : ∀ r ∈ [((1 : ℕ), (2 : ℚ), (3 : ℚ))],
      local_to_global exGeo r.1 r.2.1 r.2.2 ≠ Except.error () := by
    intro r hr
    rw [List.mem_singleton] at hr
    subst hr
    simp [local_to_global, exGeo]
  have h2 : ∃ r ∈ [((1 : ℕ), (2 : ℚ), (3 : ℚ)), ((999 : ℕ), (0 : ℚ), (0 : ℚ))],
      local_to_global exGeo r.1 r.2.1 r.2.2 = Except.error () :=
    ⟨(999, 0, 0), by simp, by simp [local_to_global, exGeo]⟩
  exact ⟨⟨h1, h2⟩,
    (import_lookup_batchwise exGeo _).1 h1,
    (import_lookup_batchwise exGeo _).2 h2⟩

/-! ### Round-trip identity (C7) -/

theorem abs_le_one_of_unit_frame (x y z : ℚ) (h : x^2 + y^2 + z^2 = 1) :
    |x| ≤ 1 := by
  rw [abs_le]
  constructor <;> nlinarith [sq_nonneg y, sq_nonneg z, sq_nonneg (x + 1), sq_nonneg (x - 1)]

theorem quantize_component_bound (da db u1 v1 : ℚ)
    (hda : |da| ≤ 1/200) (hdb : |db| ≤ 1/200)
    (hu1 : |u1| ≤ 1) (hv1 : |v1| ≤ 1) :
    |da * u1 + db * v1| ≤ 1/100 :=
  calc |da * u1 + db * v1| ≤ |da * u1| + |db * v1| := abs_add _ _
    _ = |da| * |u1| + |db| * |v1| := by rw [abs_mul, abs_mul]
    _ ≤ (1/200) * 1 + (1/200) * 1 :=
        add_le_add (mul_le_mul hda hu1 (abs_nonneg _) (by norm_num))
          (mul_le_mul hdb hv1 (abs_nonneg _) (by norm_num))
    _ = 1/100 := by norm_num

/-- C7. For a hit on a valid sensor (global position on the isometrically
placed sensor plane), converting to local coordinates, quantizing them with
the declared round-then-truncate rule, and converting back to global
reproduces each global position component within the declared 0.01
fixed-point resolution. -/
theorem roundtrip_within_resolution (g : Geometry) (gid : ℕ) (s : Sensor)
    (a b : ℚ) (hgid : gid ≠ 0) (hs : g.sensor gid = some s)
    (hu : s.ux^2 + s.uy^2 + s.uz^2 = 1)
    (hv : s.vx^2 + s.vy^2 + s.vz^2 = 1)
    (huv : s.ux * s.vx + s.uy * s.vy + s.uz * s.vz = 0) :
    global_to_local g gid (s.toGlobal a b) = .ok (a, b) ∧
    local_to_global g gid (quantize a) (quantize b)
      = .ok (s.toGlobal (quantize a) (quantize b)) ∧
    |(s.toGlobal a b).1 - (s.toGlobal (quantize a) (quantize b)).1| ≤ 1/100 ∧
    |(s.toGlobal a b).2.1 - (s.toGlobal (quantize a) (quantize b)).2.1| ≤ 1/100 ∧
    |(s.toGlobal a b).2.2 - (s.toGlobal (quantize a) (quantize b)).2.2| ≤ 1/100 := by
  have hbound : ∀ u1 v1 : ℚ, u1^2 ≤ 1 → v1^2 ≤ 1 →
      |(a - quantize a) * u1 + (b - quantize b) * v1| ≤ 1/100 := by
    intro u1 v1 hu1 hv1
    refine quantize_component_bound _ _ _ _ (abs_sub_quantize a) (abs_sub_quantize b) ?_ ?_
    · rw [abs_le]; constructor <;> nlinarith [sq_nonneg (u1 + 1), sq_nonneg (u1 - 1)]
    · rw [abs_le]; constructor <;> nlinarith [sq_nonneg (v1 + 1), sq_nonneg (v1 - 1)]
  refine ⟨?_, ?_, ?_, ?_, ?_⟩
  · unfold global_to_local
    rw [if_neg hgid, hs]
    unfold Sensor.toGlobal Sensor.toLocal
    refine congrArg Except.ok ?_
    refine Prod.ext ?_ ?_ <;> simp only []
    · linear_combination a * hu + b * huv
    · linear_combination b * hv + a * huv
  · unfold local_to_global
    rw [if_neg hgid, hs]
  · have hd : (s.toGlobal a b).1 - (s.toGlobal (quantize a) (quantize b)).1
        = (a - quantize a) * s.ux + (b - quantize b) * s.vx := by
      unfold Sensor.toGlobal; ring
    rw [hd]
    exact hbound s.ux s.vx (by nlinarith [sq_nonneg s.uy, sq_nonneg s.uz])
      (by nlinarith [sq_nonneg s.vy, sq_nonneg s.vz])
  · have hd : (s.toGlobal a b).2.1 - (s.toGlobal (quantize a) (quantize b)).2.1
        = (a - quantize a) * s.uy + (b - quantize b) * s.vy := by
      unfold Sensor.toGlobal; ring
    rw [hd]
    exact hbound s.uy s.vy (by nlinarith [sq_nonneg s.ux, sq_nonneg s.uz])
      (by nlinarith [sq_nonneg s.vx, sq_nonneg s.vz])
  · have hd : (s.toGlobal a b).2.2 - (s.toGlobal (quantize a) (quantize b)).2.2
        = (a - quantize a) * s.uz + (b - quantize b) * s.vz := by
      unfold Sensor.toGlobal; ring
    rw [hd]
    exact hbound s.uz s.vz (by nlinarith [sq_nonneg s.ux, sq_nonneg s.uy])
      (by nlinarith [sq_nonneg s.vx, sq_nonneg s.vy])

/-- C7 witness on the concrete sensor with local point `(3.14, 2.71)`. -/
theorem roundtrip_within_resolution_example :
    ((1 : ℕ) ≠ 0 ∧ exGeo.sensor 1 = some exSensor ∧
      exSensor.ux^2 + exSensor.uy^2 + exSensor.uz^2 = 1 ∧
      exSensor.vx^2 + exSensor.vy^2 + exSensor.vz^2 = 1 ∧
      exSensor.ux * exSensor.vx + exSensor.uy * exSensor.vy
        + exSensor.uz * exSensor.vz = 0) ∧
    (global_to_local exGeo 1 (exSensor.toGlobal (157/50) (271/100))
        = .ok (157/50, 271/100) ∧
      local_to_global exGeo 1 (quantize (157/50)) (quantize (271/100))
        = .ok (exSensor.toGlobal (quantize (157/50)) (quantize (271/100))) ∧
      |(exSensor.toGlobal (157/50) (271/100)).1
        - (exSensor.toGlobal (quantize (157/50)) (quantize (271/100))).1| ≤ 1/100 ∧
      |(exSensor.toGlobal (157/50) (271/100)).2.1
        - (exSensor.toGlobal (quantize (157/50)) (quantize (271/100))).2.1| ≤ 1/100 ∧
      |(exSensor.toGlobal (157/50) (271/100)).2.2
        - (exSensor.toGlobal (quantize (157/50)) (quantize (271/100))).2.2| ≤ 1/100) := by
  have h1 : (1 : ℕ) ≠ 0 := by norm_num
  have h2 : exGeo.sensor 1 = some exSensor := by simp [exGeo]
  have h3 : exSensor.ux^2 + exSensor.uy^2 + exSensor.uz^2 = 1 := by
    norm_num [exSensor]
  have h4 : exSensor.vx^2 + exSensor.vy^2 + exSensor.vz^2 = 1 := by
    norm_num [exSensor]
  have h5 : exSensor.ux * exSensor.vx + exSensor.uy * exSensor.vy
      + exSensor.uz * exSensor.vz = 0 := by norm_num [exSensor]
  exact ⟨⟨h1, h2, h3, h4, h5⟩,
    roundtrip_within_resolution exGeo 1 exSensor (157/50) (271/100) h1 h2 h3 h4 h5⟩

/-! ### Validator hit-level comparison (C1)

Embedding of the per-event hit counts and their absolute difference in
`validate_hits` (`plotting/validation.py`, identical in both generations):
`groupby("event_id").count()` yields a series over the sorted distinct
event ids, and `abs(reference_hits - generated_hits)` aligns the two series
on the sorted union of their indexes, producing NaN (modelled as `none`)
where either side is missing. -/

/-- Sorted distinct event ids of a table, the groupby keys. -/
def eventsOf (ids : List ℕ) : List ℕ :=
  List.insertionSort (fun x y => x ≤ y) ids.dedup

/-- The per-event count series `groupby("event_id").count()["index"]`. -/
def countsSeries (ids : List ℕ) : List (ℕ × ℕ) :=
  (eventsOf ids).map fun e => (e, ids.count e)

/-- Index-aligned absolute difference of two series,
`abs(reference_hits - generated_hits)`: the result is indexed by the sorted
union of the two indexes, with NaN (`none`) where either side is missing. -/
def alignAbsDiff (a b : List (ℕ × ℕ)) : List (ℕ × Option ℚ) :=
  (List.insertionSort (fun x y => x ≤ y) ((a.map Prod.fst ++ b.map Prod.fst).dedup)).map
    fun k =>
      match a.lookup k, b.lookup k with
      | some x, some y => (k, some |(x : ℚ) - (y : ℚ)|)
      | _, _ => (k, none)

/-- The `diff_hits` series of `validate_hits`. -/
def validateHitsDiff (ref gen : List SeqRow) : List (ℕ × Option ℚ) :=
  alignAbsDiff (countsSeries (ref.map fun r => r.event_id))
    (countsSeries (gen.map fun r => r.event_id))

theorem mem_eventsOf (ids : List ℕ) (k : ℕ) : k ∈ eventsOf ids ↔ k ∈ ids := by
  unfold eventsOf
  rw [(List.perm_insertionSort _ _).mem_iff, List.mem_dedup]

theorem nodup_eventsOf (ids : List ℕ) : (eventsOf ids).Nodup :=
  (List.perm_insertionSort _ _).nodup_iff.mpr (List.nodup_dedup ids)

theorem lookup_map_graph {β : Type} (g : ℕ → β) (l : List ℕ) (k : ℕ) :
    (l.map fun e => (e, g e)).lookup k = if k ∈ l then some (g k) else none := by
  induction l with
  | nil => simp [List.lookup]
  | cons x xs ih =>
    by_cases hx : k = x
    · subst hx
      simp [List.lookup]
    · have hbeq : (k == x) = false := by simp [hx]
      simp [List.lookup, hbeq, ih, List.mem_cons, hx]

theorem countsSeries_fst (ids : List ℕ) :
    (countsSeries ids).map Prod.fst = eventsOf ids := by
  unfold countsSeries
  rw [List.map_map]
  exact List.map_id _

theorem lookup_countsSeries (ids : List ℕ) (k : ℕ) :
    (countsSeries ids).lookup k = if k ∈ ids then some (ids.count k) else none := by
  unfold countsSeries
  rw [lookup_map_graph]
  by_cases h : k ∈ ids <;> simp [h, mem_eventsOf]

/-- C1 amended. An event present in only one of the two tables contributes
an entry whose value is missing (NaN), not the other side's count minus
zero; events present in both contribute the absolute count difference; the
series is indexed by the sorted union of the event ids, so it has the
reference event cardinality whenever the generated events are a subset of
the reference events. -/
theorem hit_count_diff_alignment (ref gen : List SeqRow) :
    ((∀ k, (∃ x, (k, x) ∈ validateHitsDiff ref gen) ↔
        (k ∈ ref.map (fun r => r.event_id) ∨ k ∈ gen.map (fun r => r.event_id))) ∧
      (∀ k, k ∈ ref.map (fun r => r.event_id) → k ∈ gen.map (fun r => r.event_id) →
        (k, some |(((ref.map (fun r => r.event_id)).count k : ℚ))
            - (((gen.map (fun r => r.event_id)).count k : ℚ))|)
          ∈ validateHitsDiff ref gen) ∧
      (∀ k, ((k ∈ ref.map (fun r => r.event_id) ∧ k ∉ gen.map (fun r => r.event_id)) ∨
          (k ∉ ref.map (fun r => r.event_id) ∧ k ∈ gen.map (fun r => r.event_id))) →
        (k, (none : Option ℚ)) ∈ validateHitsDiff ref gen)) ∧
    ((∀ k ∈ gen.map (fun r => r.event_id), k ∈ ref.map (fun r => r.event_id)) →
      (validateHitsDiff ref gen).length
        = (eventsOf (ref.map fun r => r.event_id)).length) := by
  set refIds := ref.map (fun r => r.event_id) with hrefIds
  set genIds := gen.map (fun r => r.event_id) with hgenIds
  have hkeys : ∀ k, k ∈ List.insertionSort (fun x y => x ≤ y)
      (((countsSeries refIds).map Prod.fst
        ++ (countsSeries genIds).map Prod.fst).dedup)
      ↔ (k ∈ refIds ∨ k ∈ genIds) := by
    intro k
    rw [(List.perm_insertionSort _ _).mem_iff, List.mem_dedup, List.mem_append,
      countsSeries_fst, countsSeries_fst, mem_eventsOf, mem_eventsOf]
  constructor
  · refine ⟨?_, ?_, ?_⟩
    · intro k
      constructor
      · rintro ⟨x, hx⟩
        unfold validateHitsDiff alignAbsDiff at hx
        obtain ⟨k', hk', hkx⟩ := List.mem_map.mp hx
        have hfst : ((match (countsSeries refIds).lookup k',
            (countsSeries genIds).lookup k' with
            | some x, some y => (k', some |(x : ℚ) - (y : ℚ)|)
            | _, _ => (k', none)) : ℕ × Option ℚ).1 = k' := by
          rcases (countsSeries refIds).lookup k' with _ | c1 <;>
            rcases (countsSeries genIds).lookup k' with _ | c2 <;> rfl
        rw [hkx] at hfst
        have hk2 : k = k' := hfst
        rw [hk2]
        exact (hkeys k').mp hk'
      · intro hk
        unfold validateHitsDiff alignAbsDiff
        rcases hm : (countsSeries refIds).lookup k with _ | c1 <;>
          rcases hm2 : (countsSeries genIds).lookup k with _ | c2
        · exact ⟨none, List.mem_map.mpr ⟨k, (hkeys k).mpr hk, by simp [hm, hm2]⟩⟩
        · exact ⟨none, List.mem_map.mpr ⟨k, (hkeys k).mpr hk, by simp [hm, hm2]⟩⟩
        · exact ⟨none, List.mem_map.mpr ⟨k, (hkeys k).mpr hk, by simp [hm, hm2]⟩⟩
        · exact ⟨some |(c1 : ℚ) - (c2 : ℚ)|,
            List.mem_map.mpr ⟨k, (hkeys k).mpr hk, by simp [hm, hm2]⟩⟩
    · intro k hkr hkg
      unfold validateHitsDiff alignAbsDiff
      refine List.mem_map.mpr ⟨k, (hkeys k).mpr (Or.inl hkr), ?_⟩
      rw [lookup_countsSeries, lookup_countsSeries, if_pos hkr, if_pos hkg]
    · intro k hk
      unfold validateHitsDiff alignAbsDiff
      rcases hk with ⟨hkr, hkg⟩ | ⟨hkr, hkg⟩
      · refine List.mem_map.mpr ⟨k, (hkeys k).mpr (Or.inl hkr), ?_⟩
        rw [lookup_countsSeries, lookup_countsSeries, if_pos hkr, if_neg hkg]
      · refine List.mem_map.mpr ⟨k, (hkeys k).mpr (Or.inr hkg), ?_⟩
        rw [lookup_countsSeries, lookup_countsSeries, if_neg hkr, if_pos hkg]
  · intro hsub
    unfold validateHitsDiff alignAbsDiff
    rw [List.length_map, (List.perm_insertionSort _ _).length_eq]
    have hperm : (((countsSeries refIds).map Prod.fst
        ++ (countsSeries genIds).map Prod.fst).dedup).Perm (eventsOf refIds) := by
      rw [List.perm_ext_iff_of_nodup (List.nodup_dedup _) (nodup_eventsOf _)]
      intro a
      rw [List.mem_dedup, List.mem_append, countsSeries_fst, countsSeries_fst,
        mem_eventsOf, mem_eventsOf]
      constructor
      · rintro (h | h)
        · exact h
        · exact hsub a h
      · exact Or.inl
    exact hperm.length_eq

/-- C1 concrete tables: rows with the given event id and per-event index,
remaining columns zero. -/
def exRow (e i : ℕ) : SeqRow :=
  { event_id := e, index := i, geometry_id := 101
    tx := 0, ty := 0, tz := 0, tpx := 0, tpy := 0, tpz := 0, lx := 0, ly := 0
    lxq := 0, lyq := 0, tpxq := 0, tpyq := 0, tpzq := 0 }

/-- Reference table with events `{0, 1, 2}` and hit counts `{5, 3, 7}`. -/
def exRef : List SeqRow :=
  ((List.range 5).map fun i => exRow 0 i)
    ++ (((List.range 3).map fun i => exRow 1 i)
      ++ ((List.range 7).map fun i => exRow 2 i))

/-- Generated table with events `{0, 2}` and hit counts `{5, 6}`. -/
def exGen : List SeqRow :=
  ((List.range 5).map fun i => exRow 0 i)
    ++ ((List.range 6).map fun i => exRow 2 i)

/-- C1 counterexample: for the spec example the code's difference series has
length 3, but the entry for the event missing from the generated table is
NaN (`none`), not the zero-padded difference 3. -/
theorem hit_count_diff_counter :
    validateHitsDiff exRef exGen = [(0, some 0), (1, none), (2, some 1)] ∧
    validateHitsDiff exRef exGen
      ≠ [(0, some 0), (1, some 3), (2, some 1)] ∧
    (validateHitsDiff exRef exGen).length = 3 := by
  have hks : countsSeries (exRef.map fun r => r.event_id)
      = [(0, 5), (1, 3), (2, 7)] := by decide
  have hgs : countsSeries (exGen.map fun r => r.event_id)
      = [(0, 5), (2, 6)] := by decide
  have hkeys : List.insertionSort (fun x y => x ≤ y)
      ((([(0, 5), (1, 3), (2, 7)] : List (ℕ × ℕ)).map Prod.fst
        ++ ([(0, 5), (2, 6)] : List (ℕ × ℕ)).map Prod.fst).dedup) = [0, 1, 2] := by
    decide
  have hmain : validateHitsDiff exRef exGen
      = [(0, some 0), (1, none), (2, some 1)] := by
    unfold validateHitsDiff
    rw [hks, hgs]
    unfold alignAbsDiff
    rw [hkeys]
    simp [List.lookup]
    norm_num
  refine ⟨hmain, ?_, by rw [hmain]; rfl⟩
  rw [hmain]
  simp

/-- C1 witness: the amended alignment semantics at the spec example. -/
theorem hit_count_diff_alignment_example :
    (∀ k ∈ exGen.map (fun r => r.event_id), k ∈ exRef.map (fun r => r.event_id)) ∧
    (validateHitsDiff exRef exGen).length
      = (eventsOf (exRef.map fun r => r.event_id)).length ∧
    (1, (none : Option ℚ)) ∈ validateHitsDiff exRef exGen ∧
    (2, some |(((exRef.map fun r => r.event_id).count 2 : ℚ))
        - (((exGen.map fun r => r.event_id).count 2 : ℚ))|)
      ∈ validateHitsDiff exRef exGen := by
  have hsub : ∀ k ∈ exGen.map (fun r => r.event_id),
      k ∈ exRef.map (fun r => r.event_id) := by decide
  exact ⟨hsub, (hit_count_diff_alignment exRef exGen).2 hsub,
    (hit_count_diff_alignment exRef exGen).1.2.2 1 (Or.inl ⟨by decide, by decide⟩),
    (hit_count_diff_alignment exRef exGen).1.2.1 2 (by decide) (by decide)⟩

/-! ### Validator reconstruction-performance comparison (C9)

Embedding of the efficiency-histogram handling in
`validate_reconstruction_performance` (validator generation) and
`validate_reconstruction` (acts generation): the bin mask
`indices = reference_eff_total[0] > 0`, the edge mask
`indices_bins = np.append(indices, False)` with
`indices_bins[np.nonzero(indices_bins)[0][-1] + 1] = True`, the masked
selection, and `efficiency = passed/total`,
`err = np.sqrt(passed)/total*efficiency`. The error series is represented
by its square `errSq`, an exact rational; the code's error value is the
nonnegative real square root of `errSq`, as the claim theorem states. -/

/-- The bin mask `reference_eff_total[0] > 0`. -/
def keptFlags (total : List ℕ) : List Bool :=
  total.map fun t => decide (0 < t)

/-- Position of the last `true` in a Boolean mask,
`np.nonzero(mask)[0][-1]`; `none` when the mask has no `true` (where the
code raises an IndexError). -/
def lastTrueIdx : List Bool → Option ℕ
  | [] => none
  | b :: rest =>
    match lastTrueIdx rest with
    | some i => some (i + 1)
    | none => if b then some 0 else none

/-- The edge mask: append `False`, then set the position after the last
`true` to `True`. -/
def keptEdgeFlags (total : List ℕ) : Option (List Bool) :=
  match lastTrueIdx (keptFlags total ++ [false]) with
  | some i => some ((keptFlags total ++ [false]).set (i + 1) true)
  | none => none

/-- Boolean-mask selection `arr[mask]`. -/
def maskList {α : Type} : List Bool → List α → List α
  | _, [] => []
  | [], _ => []
  | b :: bs, x :: xs => if b then x :: maskList bs xs else maskList bs xs

/-- Selection of a histogram series by the reference-total bin mask. -/
def maskedBy (refTotal : List ℕ) (xs : List ℕ) : List ℕ :=
  maskList (keptFlags refTotal) xs

/-- The per-bin efficiency series `passed/total` on the kept bins. -/
def effSeries (refTotal passed total : List ℕ) : List ℚ :=
  List.zipWith (fun p t => (p : ℚ) / t)
    (maskedBy refTotal passed) (maskedBy refTotal total)

/-- The square of the statistical error `sqrt(passed)/total*efficiency`. -/
def errSq (p t : ℕ) : ℚ := (p : ℚ) / (t : ℚ)^2 * ((p : ℚ) / t)^2

/-- The squared-error series on the kept bins. -/
def errSqSeries (refTotal passed total : List ℕ) : List ℚ :=
  List.zipWith (fun p t => errSq p t)
    (maskedBy refTotal passed) (maskedBy refTotal total)

theorem maskedBy_eq_filter (refTotal xs : List ℕ)
    (hlen : refTotal.length = xs.length) :
    maskedBy refTotal xs
      = ((refTotal.zip xs).filter fun q => 0 < q.1).map Prod.snd := by
  unfold maskedBy keptFlags
  induction refTotal generalizing xs with
  | nil =>
    cases xs with
    | nil => rfl
    | cons x xs => simp at hlen
  | cons t ts ih =>
    cases xs with
    | nil => simp at hlen
    | cons x xs =>
      have hlen' : ts.length = xs.length := by simpa using hlen
      by_cases ht : 0 < t
      · simp [maskList, List.filter_cons, ht, ih xs hlen']
      · simp [maskList, List.filter_cons, ht, ih xs hlen']

theorem lastTrueIdx_isSome_of_mem (l : List Bool) (h : true ∈ l) :
    ∃ v, lastTrueIdx l = some v := by
  induction l with
  | nil => simp at h
  | cons c cs ih =>
    unfold lastTrueIdx
    cases hcs : lastTrueIdx cs with
    | some w => exact ⟨w + 1, rfl⟩
    | none =>
      rcases List.mem_cons.mp h with hc | hc
      · exact ⟨0, by simp [← hc]⟩
      · obtain ⟨w, hw⟩ := ih hc
        rw [hcs] at hw
        cases hw

theorem lastTrueIdx_spec (l : List Bool) (i : ℕ) (h : lastTrueIdx l = some i) :
    l.getD i false = true ∧ ∀ j, i < j → l.getD j false = false := by
  induction l generalizing i with
  | nil => simp [lastTrueIdx] at h
  | cons b rest ih =>
    unfold lastTrueIdx at h
    cases hrest : lastTrueIdx rest with
    | some k =>
      rw [hrest] at h
      have hik : i = k + 1 := by
        simpa using h.symm
      subst hik
      obtain ⟨h1, h2⟩ := ih k hrest
      refine ⟨by simpa using h1, ?_⟩
      intro j hj
      cases j with
      | zero => omega
      | succ n =>
        have : k < n := by omega
        simpa using h2 n this
    | none =>
      rw [hrest] at h
      by_cases hb : b = true
      · subst hb
        simp at h
        subst h
        refine ⟨rfl, ?_⟩
        intro j hj
        cases j with
        | zero => omega
        | succ n =>
          have hall : ∀ m, rest.getD m false = false := by
            intro m
            cases hmv : rest.getD m false
            · rfl
            · exfalso
              have hmlt : m < rest.length := by
                by_contra hge
                rw [List.getD_eq_default _ _ (by omega)] at hmv
                exact Bool.false_ne_true hmv
              have hmem : true ∈ rest := by
                have h3 : rest[m] = true := by
                  rw [← List.getD_eq_getElem rest false hmlt]
                  exact hmv
                rw [← h3]
                exact List.getElem_mem hmlt
              obtain ⟨v, hv⟩ := lastTrueIdx_isSome_of_mem rest hmem
              rw [hrest] at hv
              cases hv
          simpa using hall n
      · simp [hb] at h

theorem lastTrueIdx_append_false (l : List Bool) :
    lastTrueIdx (l ++ [false]) = lastTrueIdx l := by
  induction l with
  | nil => rfl
  | cons b bs ih =>
    show lastTrueIdx (b :: (bs ++ [false])) = lastTrueIdx (b :: bs)
    unfold lastTrueIdx
    rw [ih]

theorem getD_append_single_false (l : List Bool) (j : ℕ) :
    (l ++ [false]).getD j false = l.getD j false := by
  induction l generalizing j with
  | nil => cases j <;> simp
  | cons b bs ih =>
    cases j with
    | zero => rfl
    | succ m =>
      show (bs ++ [false]).getD m false = bs.getD m false
      exact ih m

theorem getD_set_true (l : List Bool) (n j : ℕ) :
    (l.set n true).getD j false
      = if j = n ∧ n < l.length then true else l.getD j false := by
  induction l generalizing n j with
  | nil => simp
  | cons b bs ih =>
    cases n with
    | zero =>
      cases j with
      | zero => simp
      | succ m => simp
    | succ k =>
      cases j with
      | zero => simp
      | succ m =>
        show (bs.set k true).getD m false = _
        rw [ih]
        simp only [List.length_cons]
        by_cases hc : m = k ∧ k < bs.length
        · rw [if_pos hc, if_pos (by omega)]
        · rw [if_neg hc, if_neg (by omega)]
          rfl

theorem keptFlags_getD (T : List ℕ) (j : ℕ) :
    (keptFlags T).getD j false = decide (0 < T.getD j 0) := by
  induction T generalizing j with
  | nil => simp [keptFlags]
  | cons t ts ih =>
    cases j with
    | zero => simp [keptFlags]
    | succ n => simpa [keptFlags] using ih n

/-- C9. The kept bins are exactly those whose reference total is nonzero
(both histograms are masked by the reference selection), the kept edge
positions are the nonzero bins plus the single trailing position after the
last nonzero bin, and per kept bin the efficiency is `passed/total` with
statistical error `sqrt(passed)/total * efficiency` (represented exactly by
its square `errSq`), computed by the same formula independently for
reference and generated inputs. -/
theorem efficiency_bins (refT P T : List ℕ) (flags : List Bool) (i : ℕ)
    (hflags : keptEdgeFlags refT = some flags)
    (hlast : lastTrueIdx (keptFlags refT) = some i) :
    ((∀ X : List ℕ, refT.length = X.length →
        maskedBy refT X = ((refT.zip X).filter fun q => 0 < q.1).map Prod.snd) ∧
      0 < refT.getD i 0 ∧
      (∀ j, i < j → refT.getD j 0 = 0) ∧
      (∀ j, flags.getD j false = true ↔
        ((j < refT.length ∧ 0 < refT.getD j 0) ∨ j = i + 1))) ∧
    (effSeries refT P T = List.zipWith (fun p t => (p : ℚ) / t)
        (maskedBy refT P) (maskedBy refT T) ∧
      errSqSeries refT P T = List.zipWith (fun p t => errSq p t)
        (maskedBy refT P) (maskedBy refT T) ∧
      ∀ p t : ℕ, ((errSq p t : ℚ) : ℝ)
        = (Real.sqrt p / t * ((p : ℝ) / t))^2) := by
  obtain ⟨hi1, hi2⟩ := lastTrueIdx_spec _ i hlast
  have hpos : 0 < refT.getD i 0 := by
    have := keptFlags_getD refT i
    rw [hi1] at this
    exact of_decide_eq_true this.symm
  have hilen : i < refT.length := by
    by_contra hge
    rw [List.getD_eq_default _ _ (by omega)] at hpos
    omega
  have hzero : ∀ j, i < j → refT.getD j 0 = 0 := by
    intro j hj
    have := keptFlags_getD refT j
    rw [hi2 j hj] at this
    have := of_decide_eq_false this.symm
    omega
  have hflags' : flags = (keptFlags refT ++ [false]).set (i + 1) true := by
    unfold keptEdgeFlags at hflags
    rw [lastTrueIdx_append_false, hlast] at hflags
    simpa using hflags.symm
  constructor
  · refine ⟨fun X h => maskedBy_eq_filter refT X h, hpos, hzero, ?_⟩
    intro j
    rw [hflags', getD_set_true, getD_append_single_false, keptFlags_getD]
    have hbase : (keptFlags refT ++ [false]).length = refT.length + 1 := by
      simp [keptFlags]
    by_cases hji : j = i + 1
    · rw [if_pos ⟨hji, by omega⟩]
      simp [hji]
    · rw [if_neg (by omega)]
      by_cases hjl : j < refT.length
      · simp only [decide_eq_true_eq]
        constructor
        · intro h
          exact Or.inl ⟨hjl, h⟩
        · rintro (⟨_, h⟩ | h)
          · exact h
          · exact absurd h hji
      · have h0 : refT.getD j 0 = 0 := List.getD_eq_default _ _ (by omega)
        rw [h0]
        simp only [decide_eq_true_eq]
        constructor
        · omega
        · rintro (⟨h, _⟩ | h)
          · omega
          · exact absurd h hji
  · refine ⟨rfl, rfl, ?_⟩
    intro p t
    have hcast : ((errSq p t : ℚ) : ℝ)
        = (p : ℝ) / (t : ℝ)^2 * ((p : ℝ) / (t : ℝ))^2 := by
      push_cast [errSq]
      ring
    rw [hcast]
    conv_rhs => rw [mul_pow, div_pow,
      Real.sq_sqrt (show (0 : ℝ) ≤ (p : ℝ) by positivity)]

/-- C9 witness on the spec example `total = [0, 10, 20, 0]`: kept bins are
indices 1 and 2, kept edge positions are 1, 2 and the trailing 3. -/
theorem efficiency_bins_example :
    (keptEdgeFlags [0, 10, 20, 0] = some [false, true, true, true, false] ∧
      lastTrueIdx (keptFlags [0, 10, 20, 0]) = some 2 ∧
      maskList (keptFlags [0, 10, 20, 0]) [0, 1, 2, 3] = [1, 2] ∧
      maskList [false, true, true, true, false] [0, 1, 2, 3, 4] = [1, 2, 3]) ∧
    ((∀ X : List ℕ, ([0, 10, 20, 0] : List ℕ).length = X.length →
        maskedBy [0, 10, 20, 0] X
          = ((([0, 10, 20, 0] : List ℕ).zip X).filter fun q => 0 < q.1).map
              Prod.snd) ∧
      0 < ([0, 10, 20, 0] : List ℕ).getD 2 0 ∧
      (∀ j, 2 < j → ([0, 10, 20, 0] : List ℕ).getD j 0 = 0) ∧
      (∀ j, ([false, true, true, true, false] : List Bool).getD j false = true ↔
        ((j < ([0, 10, 20, 0] : List ℕ).length
            ∧ 0 < ([0, 10, 20, 0] : List ℕ).getD j 0) ∨ j = 2 + 1))) ∧
    (effSeries [0, 10, 20, 0] [0, 8, 15, 0] [0, 10, 20, 0]
        = List.zipWith (fun p t => (p : ℚ) / t)
          (maskedBy [0, 10, 20, 0] [0, 8, 15, 0])
          (maskedBy [0, 10, 20, 0] [0, 10, 20, 0]) ∧
      errSqSeries [0, 10, 20, 0] [0, 8, 15, 0] [0, 10, 20, 0]
        = List.zipWith (fun p t => errSq p t)
          (maskedBy [0, 10, 20, 0] [0, 8, 15, 0])
          (maskedBy [0, 10, 20, 0] [0, 10, 20, 0]) ∧
      ∀ p t : ℕ, ((errSq p t : ℚ) : ℝ)
        = (Real.sqrt p / t * ((p : ℝ) / t))^2) := by
  have h := efficiency_bins [0, 10, 20, 0] [0, 8, 15, 0] [0, 10, 20, 0]
    [false, true, true, true, false] 2 (by decide) (by decide)
  exact ⟨⟨by decide, by decide, by decide, by decide⟩, h.1, h.2⟩

end SiliconAI
